import Mathlib

/-!
Verification of the transfer-learning notebook pair
(`Transfer_Learning_Solution.ipynb` and its exercise copy).

The development shallowly embeds the notebook's own orchestration code:
the ConvNet-codes batching loop, the codes/labels cache files, the
stratified-split post-processing, the label binarizer, `get_batches`,
and the training loop with its periodic validation check.  External
collaborators (the VGG network, scikit-learn's splitter) are modelled by
their input/output contracts, stated as explicit hypotheses or as
function parameters.
-/

namespace TransferLearning

/-! ## `get_batches` (training minibatch generator)

Source (solution notebook, training cells; identical in the exercise copy):
```
def get_batches(x, y, n_batches=10):
    batch_size = len(x)//n_batches
    for ii in range(0, n_batches*batch_size, batch_size):
        if ii != (n_batches-1)*batch_size:
            X, Y = x[ii: ii+batch_size], y[ii: ii+batch_size]
        else:
            X, Y = x[ii:], y[ii:]
        yield X, Y
```
`x`, `y` are modelled as Lean lists; Python slices `x[a:a+k]` and `x[a:]`
become `(x.drop a).take k` and `x.drop a`.  When `batch_size` computes to
`0`, Python's `range(0, 0, 0)` raises `ValueError: range() arg 3 must not
be zero` as soon as the generator is iterated, before any batch is
yielded; `n_batches = 0` raises `ZeroDivisionError` in `len(x)//n_batches`.
Both failure modes are modelled as `none`.  When `batch_size ≥ 1`,
`range(0, n_batches*batch_size, batch_size)` enumerates `k * batch_size`
for `k = 0, …, n_batches - 1`, modelled with `List.range`. -/
def get_batches (x : List α) (y : List β) (n_batches : Nat) :
    Option (List (List α × List β)) :=
  if n_batches = 0 then none
  else
    let batch_size := x.length / n_batches
    if batch_size = 0 then none
    else
      some ((List.range n_batches).map (fun k =>
        let ii := k * batch_size
        if ii ≠ (n_batches - 1) * batch_size then
          ((x.drop ii).take batch_size, (y.drop ii).take batch_size)
        else
          (x.drop ii, y.drop ii)))

/-- Concatenating the `n` slices taken by `get_batches` (chunks of width
`b` except the last, which takes the whole tail) restores the list. -/
theorem join_slices (n : Nat) (hn : 1 ≤ n) :
    ∀ (x : List α) (b : Nat),
      ((List.range n).map (fun k =>
        if k ≠ n - 1 then (x.drop (k * b)).take b else x.drop (k * b))).flatten
        = x := by
  induction n with
  | zero => omega
  | succ m ih =>
    intro x b
    rcases Nat.eq_zero_or_pos m with hm | hm
    · subst hm
      have h1 : List.range 1 = [0] := rfl
      rw [h1, List.map_cons, List.map_nil, List.flatten_cons,
        List.flatten_nil, List.append_nil, if_neg (by omega), Nat.zero_mul,
        List.drop_zero]
    · rw [List.range_succ_eq_map, List.map_cons, List.map_map]
      have h0 : (if (0 : Nat) ≠ m + 1 - 1 then (x.drop (0 * b)).take b
          else x.drop (0 * b)) = x.take b := by
        have hne : (0 : Nat) ≠ m + 1 - 1 := by omega
        rw [if_pos hne, Nat.zero_mul, List.drop_zero]
      have htail : (List.range m).map
          ((fun k => if k ≠ m + 1 - 1 then (x.drop (k * b)).take b
            else x.drop (k * b)) ∘ Nat.succ)
          = (List.range m).map (fun k =>
            if k ≠ m - 1 then ((x.drop b).drop (k * b)).take b
            else (x.drop b).drop (k * b)) := by
        refine List.map_congr_left ?_
        intro k hk
        have hk' : k < m := List.mem_range.mp hk
        have hcond : (Nat.succ k ≠ m + 1 - 1) = (k ≠ m - 1) := by
          simp only [eq_iff_iff]
          omega
        have hdrop : x.drop (Nat.succ k * b) = (x.drop b).drop (k * b) := by
          have hmul : Nat.succ k * b = b + k * b := by
            rw [Nat.succ_mul, Nat.add_comm]
          rw [hmul, List.drop_drop, Nat.add_comm]
        simp only [Function.comp_apply, hcond, hdrop]
      rw [h0, htail, List.flatten_cons, ih hm (x.drop b) b,
        List.take_append_drop]

/-- C5: with `1 ≤ n_batches ≤ len x`, `get_batches` yields exactly
`n_batches` batches whose concatenation (on each component) restores the
full training arrays: every training sample appears in exactly one
minibatch and the final chunk absorbs the remainder. -/
theorem get_batches_coverage (x : List α) (y : List β) (n_batches : Nat)
    (hn : 1 ≤ n_batches) (hx : n_batches ≤ x.length) :
    ∃ bs, get_batches x y n_batches = some bs ∧
      bs.length = n_batches ∧
      (bs.map Prod.fst).flatten = x ∧
      (bs.map Prod.snd).flatten = y := by
  have hn0 : n_batches ≠ 0 := by omega
  have hb : 1 ≤ x.length / n_batches :=
    (Nat.one_le_div_iff (by omega)).mpr hx
  have hb0 : x.length / n_batches ≠ 0 := by omega
  refine ⟨_, by simp only [get_batches, hn0, hb0, if_false, ite_false]; rfl,
    ?_, ?_, ?_⟩
  · simp
  · rw [List.map_map]
    have hcongr : ∀ z : List α,
        (List.range n_batches).map (Prod.fst ∘ (fun k =>
          let ii := k * (x.length / n_batches)
          if ii ≠ (n_batches - 1) * (x.length / n_batches) then
            ((x.drop ii).take (x.length / n_batches),
             (y.drop ii).take (x.length / n_batches))
          else (x.drop ii, y.drop ii)))
        = (List.range n_batches).map (fun k =>
          if k ≠ n_batches - 1 then
            (x.drop (k * (x.length / n_batches))).take (x.length / n_batches)
          else x.drop (k * (x.length / n_batches))) := by
      intro z
      refine List.map_congr_left ?_
      intro k hk
      have hiff : (k * (x.length / n_batches)
          ≠ (n_batches - 1) * (x.length / n_batches)) ↔ (k ≠ n_batches - 1) := by
        constructor
        · intro h he; exact h (by rw [he])
        · intro h he
          exact h (Nat.eq_of_mul_eq_mul_right (by omega) he)
      by_cases hc : k ≠ n_batches - 1
      · simp only [Function.comp_apply, if_pos (hiff.mpr hc), if_pos hc]
      · simp only [Function.comp_apply, if_neg (fun hx2 => hc (hiff.mp hx2)),
          if_neg hc]
    rw [hcongr x, join_slices n_batches hn x (x.length / n_batches)]
  · rw [List.map_map]
    have hcongr : (List.range n_batches).map (Prod.snd ∘ (fun k =>
          let ii := k * (x.length / n_batches)
          if ii ≠ (n_batches - 1) * (x.length / n_batches) then
            ((x.drop ii).take (x.length / n_batches),
             (y.drop ii).take (x.length / n_batches))
          else (x.drop ii, y.drop ii)))
        = (List.range n_batches).map (fun k =>
          if k ≠ n_batches - 1 then
            (y.drop (k * (x.length / n_batches))).take (x.length / n_batches)
          else y.drop (k * (x.length / n_batches))) := by
      refine List.map_congr_left ?_
      intro k hk
      have hiff : (k * (x.length / n_batches)
          ≠ (n_batches - 1) * (x.length / n_batches)) ↔ (k ≠ n_batches - 1) := by
        constructor
        · intro h he; exact h (by rw [he])
        · intro h he
          exact h (Nat.eq_of_mul_eq_mul_right (by omega) he)
      by_cases hc : k ≠ n_batches - 1
      · simp only [Function.comp_apply, if_pos (hiff.mpr hc), if_pos hc]
      · simp only [Function.comp_apply, if_neg (fun hx2 => hc (hiff.mp hx2)),
          if_neg hc]
    rw [hcongr, join_slices n_batches hn y (x.length / n_batches)]

/-- Witness for C5 at a concrete input. -/
theorem get_batches_coverage_witness :
    ∃ bs, get_batches [1, 2, 3] [4, 5, 6] 2 = some bs ∧
      bs.length = 2 ∧
      (bs.map Prod.fst).flatten = [1, 2, 3] ∧
      (bs.map Prod.snd).flatten = [4, 5, 6] :=
  get_batches_coverage [1, 2, 3] [4, 5, 6] 2 (by decide) (by decide)

/-- C10: when `1 ≤ len x < n_batches`, the computed batch size
`len x / n_batches` is zero, so iterating the generator raises
(`range` step zero) before any batch is yielded: `get_batches` yields
nothing. -/
theorem get_batches_small_input (x : List α) (y : List β) (n_batches : Nat)
    (h1 : 1 ≤ x.length) (h2 : x.length < n_batches) :
    get_batches x y n_batches = none := by
  have hn0 : n_batches ≠ 0 := by omega
  have hb : x.length / n_batches = 0 := Nat.div_eq_of_lt h2
  simp [get_batches, hn0, hb]

/-- Witness for C10 at a concrete input. -/
theorem get_batches_small_input_witness :
    get_batches [7] [8] 3 = none :=
  get_batches_small_input [7] [8] 3 (by decide) (by decide)

/-! ## Holdout split (stratified splitter post-processing)

Source (solution notebook):
```
train_idx, val_idx = next(ss.split(codes, labels_vecs))
half_val_len = int(len(val_idx)/2)
val_idx, test_idx = val_idx[:half_val_len], val_idx[half_val_len:]
```
`StratifiedShuffleSplit` is an external scikit-learn collaborator; its
documented postcondition (with `train_size=None`) is that `train_idx`
and `val_idx` are disjoint index arrays jointly covering `0 … N-1`,
stated below as a permutation hypothesis.  Only the notebook-owned
halving of the holdout is embedded.  `int(len(val_idx)/2)` truncates a
non-negative float, i.e. floor division. -/
def half_val_len (val_idx : List Nat) : Nat :=
  val_idx.length / 2

/-- `val_idx[:half_val_len], val_idx[half_val_len:]` — the second split
of the holdout into validation and test index lists. -/
def holdout_split (val_idx : List Nat) : List Nat × List Nat :=
  (val_idx.take (half_val_len val_idx), val_idx.drop (half_val_len val_idx))

/-- C6 counterexample: on an odd-length holdout the two halves are NOT
of equal size (here 1 versus 2), refuting the claim that the second
split always produces equal halves. -/
theorem holdout_split_uneven_cex :
    ¬ ((holdout_split [5, 2, 9]).1.length = (holdout_split [5, 2, 9]).2.length) := by
  decide

/-- C6 (amended): the second split gives validation the first
`⌊L/2⌋` holdout indices and test the remaining `L - ⌊L/2⌋`; the two
parts reassemble the holdout, and they are of equal size exactly when
the holdout length is even. -/
theorem holdout_split_halves (val_idx : List Nat) :
    (holdout_split val_idx).1 ++ (holdout_split val_idx).2 = val_idx ∧
    (holdout_split val_idx).1.length = val_idx.length / 2 ∧
    (holdout_split val_idx).2.length = val_idx.length - val_idx.length / 2 ∧
    (val_idx.length % 2 = 0 →
      (holdout_split val_idx).1.length = (holdout_split val_idx).2.length) := by
  have h1 : (holdout_split val_idx).1.length = val_idx.length / 2 := by
    simp only [holdout_split, half_val_len, List.length_take]
    exact Nat.min_eq_left (Nat.div_le_self _ _)
  have h2 : (holdout_split val_idx).2.length =
      val_idx.length - val_idx.length / 2 := by
    simp only [holdout_split, half_val_len, List.length_drop]
  refine ⟨List.take_append_drop _ _, h1, h2, fun heven => ?_⟩
  rw [h1, h2]
  omega

/-- Witness for C6 (amended) at a concrete even-length holdout. -/
theorem holdout_split_halves_witness :
    (holdout_split [4, 7]).1.length = (holdout_split [4, 7]).2.length :=
  (holdout_split_halves [4, 7]).2.2.2 (by decide)

/-- C4: assuming the splitter's postcondition — `train_idx ++ val_idx`
is a permutation of `0 … n-1` — the three final index lists (train, and
the two halves of the holdout) are pairwise disjoint, duplicate-free,
and jointly cover exactly the indices `0 … n-1`: every sample index
lies in exactly one of the three sets. -/
theorem split_partition (n : Nat) (train_idx val_idx : List Nat)
    (h : (train_idx ++ val_idx).Perm (List.range n)) :
    (∀ i, i ∈ List.range n ↔
      (i ∈ train_idx ∨ i ∈ (holdout_split val_idx).1 ∨
        i ∈ (holdout_split val_idx).2)) ∧
    train_idx.Disjoint (holdout_split val_idx).1 ∧
    train_idx.Disjoint (holdout_split val_idx).2 ∧
    (holdout_split val_idx).1.Disjoint (holdout_split val_idx).2 ∧
    train_idx.Nodup ∧ (holdout_split val_idx).1.Nodup ∧
    (holdout_split val_idx).2.Nodup := by
  have hnd : (train_idx ++ val_idx).Nodup :=
    h.nodup_iff.mpr (List.nodup_range n)
  have hsplit := List.nodup_append.mp hnd
  have hval : val_idx.Nodup := hsplit.2.1
  have hdisj : train_idx.Disjoint val_idx := hsplit.2.2
  have hvt : (holdout_split val_idx).1 ++ (holdout_split val_idx).2 = val_idx :=
    List.take_append_drop _ _
  have hvnd : ((holdout_split val_idx).1 ++ (holdout_split val_idx).2).Nodup := by
    rw [hvt]; exact hval
  have hvsplit := List.nodup_append.mp hvnd
  refine ⟨?_, ?_, ?_, hvsplit.2.2, hsplit.1, hvsplit.1, hvsplit.2.1⟩
  · intro i
    rw [← h.mem_iff, List.mem_append]
    have hv : i ∈ val_idx ↔
        i ∈ (holdout_split val_idx).1 ∨ i ∈ (holdout_split val_idx).2 := by
      conv_lhs => rw [← hvt]
      exact List.mem_append
    rw [hv]
  · intro a ha hb
    exact hdisj ha (by rw [← hvt]; exact List.mem_append_left _ hb)
  · intro a ha hb
    exact hdisj ha (by rw [← hvt]; exact List.mem_append_right _ hb)

/-- Witness for C4 at a concrete split of `{0, 1, 2, 3}`. -/
theorem split_partition_witness :
    (∀ i, i ∈ List.range 4 ↔
      (i ∈ [2, 0] ∨ i ∈ (holdout_split [3, 1]).1 ∨
        i ∈ (holdout_split [3, 1]).2)) ∧
    List.Disjoint [2, 0] (holdout_split [3, 1]).1 ∧
    List.Disjoint [2, 0] (holdout_split [3, 1]).2 ∧
    List.Disjoint (holdout_split [3, 1]).1 (holdout_split [3, 1]).2 ∧
    List.Nodup [2, 0] ∧ (holdout_split [3, 1]).1.Nodup ∧
    (holdout_split [3, 1]).2.Nodup :=
  split_partition 4 [2, 0] [3, 1] (by decide)

/-! ## ConvNet-codes batching loop (feature-cache pipeline)

Source (solution notebook, cell computing the codes; the exercise copy
is identical apart from the `TODO` for the VGG call):
```
codes_list = []
labels = []
batch = []
codes = None
...
for each in classes:
    files = os.listdir(class_path)
    for ii, file in enumerate(files, 1):
        img = utils.load_image(...)
        batch.append(img.reshape((1, 224, 224, 3)))
        labels.append(each)
        if ii % batch_size == 0 or ii == len(files):
            images = np.concatenate(batch)
            codes_batch = sess.run(vgg.relu6, feed_dict=feed_dict)
            if codes is None:
                codes = codes_batch
            else:
                codes = np.concatenate((codes, codes_batch))
            batch = []
```
The VGG network is an external collaborator whose contract is: for a
batch of images it returns one code row per image, in submission order.
It is modelled by an arbitrary per-image function `f : Img → ρ`, so
`codes_batch = batch.map f`.  Images and labels are abstract types;
`ii` carries Python's 1-based `enumerate` index and `total = len(files)`. -/
structure PipeState (Img ρ Lbl : Type*) where
  codes : Option (List ρ)
  labels : List Lbl
  batch : List Img

/-- `if codes is None: codes = codes_batch else: codes = np.concatenate(...)`. -/
def appendCodes (codes : Option (List ρ)) (codes_batch : List ρ) :
    Option (List ρ) :=
  match codes with
  | none => some codes_batch
  | some c => some (c ++ codes_batch)

/-- The inner `for ii, file in enumerate(files, 1)` loop of one class. -/
def class_loop (f : Img → ρ) (bs total : Nat) (cls : Lbl) :
    PipeState Img ρ Lbl → Nat → List Img → PipeState Img ρ Lbl
  | st, _, [] => st
  | st, ii, file :: files =>
    let st1 : PipeState Img ρ Lbl :=
      { st with batch := st.batch ++ [file], labels := st.labels ++ [cls] }
    if ii % bs = 0 ∨ ii = total then
      class_loop f bs total cls
        { codes := appendCodes st1.codes (st1.batch.map f)
          labels := st1.labels
          batch := [] } (ii + 1) files
    else
      class_loop f bs total cls st1 (ii + 1) files

/-- The outer `for each in classes` loop; each class is its label paired
with its directory-listing file sequence. -/
def run_pipeline (f : Img → ρ) (bs : Nat) :
    List (Lbl × List Img) → PipeState Img ρ Lbl → PipeState Img ρ Lbl
  | [], st => st
  | (cls, files) :: rest, st =>
    run_pipeline f bs rest (class_loop f bs files.length cls st 1 files)

/-- The per-class loop, instrumented to return the list of image batches
submitted to the network (same control flow as `class_loop`). -/
def class_batches_aux (bs total : Nat) :
    List Img → Nat → List Img → List (List Img)
  | _, _, [] => []
  | batch, ii, file :: files =>
    let batch1 := batch ++ [file]
    if ii % bs = 0 ∨ ii = total then
      batch1 :: class_batches_aux bs total [] (ii + 1) files
    else
      class_batches_aux bs total batch1 (ii + 1) files

/-- The batches one class's file list is submitted in. -/
def class_batches (bs : Nat) (files : List Img) : List (List Img) :=
  class_batches_aux bs files.length [] 1 files

/-- Every pending image is eventually flushed: concatenating the
submitted batches yields the pending buffer followed by the remaining
files, provided the loop runs to the class's last index (where the
`ii == len(files)` disjunct forces a flush). -/
theorem class_batches_aux_flatten (bs total : Nat) :
    ∀ (files batch : List Img) (ii : Nat), files ≠ [] →
      ii + files.length = total + 1 →
      (class_batches_aux bs total batch ii files).flatten = batch ++ files := by
  intro files
  induction files with
  | nil => intro batch ii h; exact absurd rfl h
  | cons file fs ih =>
    intro batch ii _ hii
    rcases List.eq_nil_or_concat fs with hfs | _
    · subst hfs
      have htot : ii = total := by simpa using hii
      simp [class_batches_aux, htot]
    · have hfs : fs ≠ [] := by
        rintro rfl
        simp_all
      have hii' : (ii + 1) + fs.length = total + 1 := by
        simp only [List.length_cons] at hii
        omega
      by_cases hc : ii % bs = 0 ∨ ii = total
      · simp only [class_batches_aux, if_pos hc, List.flatten_cons,
          ih [] (ii + 1) hfs hii', List.nil_append, List.append_assoc,
          List.singleton_append]
      · simp only [class_batches_aux, if_neg hc,
          ih (batch ++ [file]) (ii + 1) hfs hii', List.append_assoc,
          List.singleton_append]

/-- C3: for any batch size ≥ 1 and any class file list, the submitted
batches concatenate back to exactly the file list (so their sizes sum to
the class's file count, no image is submitted twice, and the final
partial batch is submitted); a class with zero files submits zero
batches. -/
theorem class_batches_complete (bs : Nat) (hbs : 1 ≤ bs) (files : List Img) :
    (class_batches bs files).flatten = files ∧
    ((class_batches bs files).map List.length).sum = files.length ∧
    class_batches bs ([] : List Img) = [] := by
  refine ⟨?_, ?_, rfl⟩
  · rcases List.eq_nil_or_concat files with hf | _
    · subst hf; rfl
    · have hf : files ≠ [] := by
        rintro rfl
        simp_all
      simpa using class_batches_aux_flatten bs files.length files [] 1 hf
        (by omega)
  · rcases List.eq_nil_or_concat files with hf | _
    · subst hf; rfl
    · have hf : files ≠ [] := by
        rintro rfl
        simp_all
      have := class_batches_aux_flatten bs files.length files [] 1 hf
        (by omega)
      calc ((class_batches bs files).map List.length).sum
          = (class_batches bs files).flatten.length := (List.length_flatten _).symm
        _ = files.length := by
            rw [class_batches]
            simp [this]

/-- Witness for C3 at a concrete input (batch size 2, three files:
batches `[[a, b], [c]]`, the final partial batch included). -/
theorem class_batches_complete_witness :
    (class_batches 2 [10, 20, 30]).flatten = [10, 20, 30] ∧
    ((class_batches 2 [10, 20, 30]).map List.length).sum = 3 ∧
    class_batches 2 ([] : List Nat) = [] := by
  have h := class_batches_complete 2 (by decide) [10, 20, 30]
  simpa using h

/-- The accumulation order of the pipeline: every image of every class,
classes in listing order, files in listing order within a class, each
image paired with its class label. -/
def class_samples (classes : List (Lbl × List Img)) : List (Img × Lbl) :=
  classes.flatMap (fun p => p.2.map (fun im => (im, p.1)))

/-- `appendCodes` composes by list concatenation. -/
theorem appendCodes_append (codes : Option (List ρ)) (a b : List ρ) :
    appendCodes (appendCodes codes a) b = appendCodes codes (a ++ b) := by
  cases codes <;> simp [appendCodes]

/-- Closed form of one class's loop: starting at index 1 … total with a
pending buffer, the loop flushes the buffer and all files into `codes`
(one row per image, via `f`, in order), appends the class label once per
file, and leaves the buffer empty. -/
theorem class_loop_closed (f : Img → ρ) (bs total : Nat) (cls : Lbl) :
    ∀ (files : List Img) (st : PipeState Img ρ Lbl) (ii : Nat), files ≠ [] →
      ii + files.length = total + 1 →
      class_loop f bs total cls st ii files =
        { codes := appendCodes st.codes ((st.batch ++ files).map f)
          labels := st.labels ++ files.map (fun _ => cls)
          batch := [] } := by
  intro files
  induction files with
  | nil => intro st ii h; exact absurd rfl h
  | cons file fs ih =>
    intro st ii _ hii
    rcases List.eq_nil_or_concat fs with hfs | _
    · subst hfs
      have htot : ii = total := by simpa using hii
      simp [class_loop, htot, class_loop]
    · have hfs : fs ≠ [] := by
        rintro rfl
        simp_all
      have hii' : (ii + 1) + fs.length = total + 1 := by
        simp only [List.length_cons] at hii
        omega
      by_cases hc : ii % bs = 0 ∨ ii = total
      · simp only [class_loop, if_pos hc, ih _ (ii + 1) hfs hii']
        simp [appendCodes_append, List.append_assoc]
      · simp only [class_loop, if_neg hc, ih _ (ii + 1) hfs hii']
        simp [List.append_assoc]

/-- Closed form of the whole pipeline, for any start state with an empty
pending buffer. -/
theorem run_pipeline_closed (f : Img → ρ) (bs : Nat) :
    ∀ (classes : List (Lbl × List Img)) (st : PipeState Img ρ Lbl),
      st.batch = [] →
      run_pipeline f bs classes st =
        { codes := if (class_samples classes).isEmpty then st.codes
            else appendCodes st.codes
              ((class_samples classes).map (fun q => f q.1))
          labels := st.labels ++ (class_samples classes).map Prod.snd
          batch := [] } := by
  intro classes
  induction classes with
  | nil =>
    intro st hst
    cases st
    simp_all [run_pipeline, class_samples]
  | cons p rest ih =>
    intro st hst
    obtain ⟨cls, files⟩ := p
    cases files with
    | nil =>
      have h1 : class_loop f bs (List.length ([] : List Img)) cls st 1 []
          = st := rfl
      have h2 : class_samples ((cls, ([] : List Img)) :: rest)
          = class_samples rest := by
        simp [class_samples]
      rw [run_pipeline, h1, ih st hst, h2]
    | cons file fs =>
      have hstep := class_loop_closed f bs (file :: fs).length cls
        (file :: fs) st 1 (List.cons_ne_nil _ _) (Nat.add_comm 1 _)
      have hsamp : class_samples ((cls, file :: fs) :: rest)
          = (file :: fs).map (fun im => (im, cls)) ++ class_samples rest := by
        simp [class_samples]
      rw [run_pipeline, hstep, ih _ rfl, hsamp]
      have hne : ((file :: fs).map (fun im => (im, cls))
          ++ class_samples rest).isEmpty = false := by
        simp
      rw [hne]
      have hc1 : ((fun q : Img × Lbl => f q.1) ∘ fun im : Img => (im, cls))
          = f := by
        funext im
        rfl
      have hc2 : ((Prod.snd : Img × Lbl → Lbl) ∘ fun im : Img => (im, cls))
          = fun _ : Img => cls := by
        funext im
        rfl
      by_cases hrest : (class_samples rest).isEmpty
      · have hrest' : class_samples rest = [] := List.isEmpty_iff.mp hrest
        rw [if_pos hrest, hrest']
        simp [hst, List.map_map, hc1, hc2]
      · rw [if_neg hrest]
        simp [hst, List.map_map, appendCodes_append, hc1, hc2]

/-- C2: for any dataset (classes in listing order, each with its file
list) and any batch size ≥ 1, the pipeline's label sequence lists each
image's class in accumulation order, the code array holds exactly one
row per image — the `i`-th row is the network output for the `i`-th
accumulated image, whose class is the `i`-th label — the array is absent
only for an image-free dataset, and no image is left pending. -/
theorem pipeline_alignment (f : Img → ρ) (bs : Nat) (hbs : 1 ≤ bs)
    (classes : List (Lbl × List Img)) :
    (run_pipeline f bs classes ⟨none, [], []⟩).labels
        = (class_samples classes).map Prod.snd ∧
    (run_pipeline f bs classes ⟨none, [], []⟩).codes.getD []
        = (class_samples classes).map (fun q => f q.1) ∧
    ((run_pipeline f bs classes ⟨none, [], []⟩).codes = none ↔
      class_samples classes = []) ∧
    (run_pipeline f bs classes ⟨none, [], []⟩).batch = [] := by
  rw [run_pipeline_closed f bs classes ⟨none, [], []⟩ rfl]
  by_cases hr : (class_samples classes).isEmpty
  · have hr' : class_samples classes = [] := List.isEmpty_iff.mp hr
    rw [if_pos hr, hr']
    simp
  · have hr' : class_samples classes ≠ [] := by
      intro h
      rw [h] at hr
      exact hr rfl
    rw [if_neg hr]
    simp [appendCodes, hr']

/-- Witness for C2 at a concrete dataset: two classes, one of them
empty, batch size 2. -/
theorem pipeline_alignment_witness :
    (run_pipeline (fun i => i + 100) 2 [(0, [1, 2, 3]), (1, [])]
        ⟨none, [], []⟩).labels
        = (class_samples [(0, [1, 2, 3]), (1, ([] : List Nat))]).map Prod.snd ∧
    (run_pipeline (fun i => i + 100) 2 [(0, [1, 2, 3]), (1, [])]
        ⟨none, [], []⟩).codes.getD []
        = (class_samples [(0, [1, 2, 3]), (1, ([] : List Nat))]).map
            (fun q => q.1 + 100) ∧
    ((run_pipeline (fun i => i + 100) 2 [(0, [1, 2, 3]), (1, [])]
        ⟨none, [], []⟩).codes = none ↔
      class_samples [(0, [1, 2, 3]), (1, ([] : List Nat))] = []) ∧
    (run_pipeline (fun i => i + 100) 2 [(0, [1, 2, 3]), (1, [])]
        ⟨none, [], []⟩).batch = [] :=
  pipeline_alignment (fun i => i + 100) 2 (by decide) [(0, [1, 2, 3]), (1, [])]

/-! ## Codes/labels cache files

Source (both notebooks):
```
# write
with open('codes', 'w') as f:
    codes.tofile(f)
with open('labels', 'w') as f:
    writer = csv.writer(f, delimiter='\n')
    writer.writerow(labels)
# read
with open('labels') as f:
    reader = csv.reader(f, delimiter='\n')
    labels = np.array([each for each in reader if len(each) > 0]).squeeze()
with open('codes') as f:
    codes = np.fromfile(f, dtype=np.float32)
    codes = codes.reshape((len(labels), -1))
```
A stored 32-bit float is modelled by its 4-byte pattern, an abstract
`Nat` token: `tofile`/`fromfile` write and read the raw bytes back
unchanged, so serialization is exact value identity.  `codes.tofile`
dumps the 2-D array row-major, i.e. flattens it. -/
def write_codes (codes : List (List Nat)) : List Nat :=
  codes.flatten

/-- `codes.reshape((n, -1))`: numpy infers the row width as
`len / n`, requiring `n` to be a positive divisor of the element count
(`reshape` raises `ValueError` otherwise, including for `n = 0`), and
returns `n` rows of that width. -/
def reshape_rows (n : Nat) (flat : List α) : Option (List (List α)) :=
  if n = 0 then none
  else if flat.length % n ≠ 0 then none
  else
    let w := flat.length / n
    some ((List.range n).map (fun i => (flat.drop (i * w)).take w))

/-- `csv.writer(f, delimiter='\n'); writer.writerow(labels)`: fields
joined by the delimiter, one `'\r\n'` row terminator at the end.  The
model covers label strings free of the csv-special characters
(`'\n'`, `'\r'`, `'"'`), which is the alphabet the pipeline produces
(directory names); with such fields the minimal-quoting writer emits
them verbatim. -/
def write_labels : List (List Char) → List Char
  | [] => ['\r', '\n']
  | [l] => l ++ ['\r', '\n']
  | l :: ls => l ++ '\n' :: write_labels ls

/-- Python's universal-newlines translation on text-mode read: `'\r\n'`
and lone `'\r'` both become `'\n'`. -/
def univ_newlines : List Char → List Char
  | [] => []
  | '\r' :: '\n' :: cs => '\n' :: univ_newlines cs
  | '\r' :: cs => '\n' :: univ_newlines cs
  | c :: cs => c :: univ_newlines cs

/-- Splitting a character stream at `'\n'` (what `csv.reader` with
delimiter `'\n'` sees: one single-field row per line). -/
def split_lines : List Char → List (List Char)
  | [] => [[]]
  | c :: cs =>
    if c = '\n' then [] :: split_lines cs
    else
      match split_lines cs with
      | [] => [[c]]
      | l :: ls => (c :: l) :: ls

/-- The row list the reader comprehension keeps: rows from non-empty
lines (`if len(each) > 0` drops the empty rows produced by blank
lines). -/
def read_lines (file : List Char) : List (List Char) :=
  (split_lines (univ_newlines file)).filter (fun l => l ≠ [])

/-- `np.array([...]).squeeze()` then `len(labels)`: with exactly one
row, `squeeze` collapses the `(1, 1)` array to 0 dimensions and the
subsequent `len(labels)` raises `TypeError` — modelled as `none`. -/
def read_labels (file : List Char) : Option (List (List Char)) :=
  let ls := read_lines file
  if ls.length = 1 then none else some ls

/-- The reload cell: read the labels file, then `np.fromfile` the codes
file and `reshape((len(labels), -1))`.  Any raising step is `none`. -/
def reload_cache (codesFile : List Nat) (labelsFile : List Char) :
    Option (List (List Nat) × List (List Char)) :=
  match read_labels labelsFile with
  | none => none
  | some labels =>
    match reshape_rows labels.length codesFile with
    | none => none
    | some codes => some (codes, labels)

/-- A character other than `'\r'` passes through `univ_newlines`. -/
theorem univ_cons_ne (c : Char) (cs : List Char) (h : c ≠ '\r') :
    univ_newlines (c :: cs) = c :: univ_newlines cs := by
  cases cs with
  | nil => simp [univ_newlines, h]
  | cons d ds => simp [univ_newlines, h]

/-- A `'\r'`-free prefix passes through `univ_newlines`. -/
theorem univ_nocr_append (l cs : List Char) (h : '\r' ∉ l) :
    univ_newlines (l ++ cs) = l ++ univ_newlines cs := by
  induction l with
  | nil => rfl
  | cons c l' ih =>
    have hc : c ≠ '\r' := fun he => h (he ▸ List.mem_cons_self c l')
    have hl : '\r' ∉ l' := fun hm => h (List.mem_cons_of_mem c hm)
    rw [List.cons_append, univ_cons_ne c _ hc, ih hl, List.cons_append]

/-- Splitting a `'\n'`-free line followed by a `'\n'` peels it off. -/
theorem split_lines_append (l : List Char) (rest : List Char)
    (h : '\n' ∉ l) :
    split_lines (l ++ '\n' :: rest) = l :: split_lines rest := by
  induction l with
  | nil => simp [split_lines]
  | cons c cs ih =>
    have hc : c ≠ '\n' := fun he => h (he ▸ List.mem_cons_self c cs)
    have hcs : '\n' ∉ cs := fun hm => h (List.mem_cons_of_mem c hm)
    rw [List.cons_append, split_lines]
    rw [if_neg hc, ih hcs]

/-- Round trip of the labels file at the line level: writing labels that
are non-empty and free of `'\n'`/`'\r'` and re-reading yields exactly
the original label list. -/
theorem read_write_lines (labels : List (List Char))
    (h : ∀ l ∈ labels, l ≠ [] ∧ '\n' ∉ l ∧ '\r' ∉ l) :
    read_lines (write_labels labels) = labels := by
  induction labels with
  | nil => rfl
  | cons l ls ih =>
    obtain ⟨hne, hnn, hnr⟩ := h l (List.mem_cons_self l ls)
    have hrest : ∀ x ∈ ls, x ≠ [] ∧ '\n' ∉ x ∧ '\r' ∉ x :=
      fun x hx => h x (List.mem_cons_of_mem l hx)
    cases ls with
    | nil =>
      rw [read_lines, write_labels]
      have h1 : univ_newlines (l ++ ['\r', '\n']) = l ++ ['\n'] := by
        rw [univ_nocr_append l _ hnr]
        rfl
      rw [h1]
      have h2 : split_lines (l ++ '\n' :: []) = l :: split_lines [] :=
        split_lines_append l [] hnn
      rw [h2]
      simp [split_lines, hne]
    | cons l2 ls2 =>
      rw [read_lines, write_labels]
      have h1 : univ_newlines (l ++ '\n' :: write_labels (l2 :: ls2))
          = l ++ '\n' :: univ_newlines (write_labels (l2 :: ls2)) := by
        rw [univ_nocr_append l _ hnr, univ_cons_ne '\n' _ (by decide)]
      rw [h1, split_lines_append l _ hnn,
        List.filter_cons_of_pos (by simpa using hne)]
      exact congrArg (List.cons l) (ih hrest)
      exact List.cons_ne_nil l2 ls2

/-- Reshaping the row-major flattening of uniform-width rows restores
the rows. -/
theorem reshape_flatten (d : Nat) :
    ∀ (codes : List (List α)), (∀ r ∈ codes, r.length = d) →
      (List.range codes.length).map
        (fun i => ((codes.flatten).drop (i * d)).take d) = codes := by
  intro codes
  induction codes with
  | nil => intro _; rfl
  | cons r cs ih =>
    intro h
    have hr : r.length = d := h r (List.mem_cons_self r cs)
    have hcs : ∀ x ∈ cs, x.length = d :=
      fun x hx => h x (List.mem_cons_of_mem r hx)
    rw [List.length_cons, List.range_succ_eq_map, List.map_cons,
      List.map_map]
    have h0 : ((r :: cs).flatten.drop (0 * d)).take d = r := by
      rw [Nat.zero_mul, List.drop_zero, List.flatten_cons, ← hr,
        List.take_left]
    have htail : (List.range cs.length).map
        ((fun i => ((r :: cs).flatten.drop (i * d)).take d) ∘ Nat.succ)
        = (List.range cs.length).map
          (fun i => ((cs.flatten).drop (i * d)).take d) := by
      refine List.map_congr_left ?_
      intro k hk
      have hd : (r :: cs).flatten.drop (Nat.succ k * d)
          = cs.flatten.drop (k * d) := by
        rw [List.flatten_cons]
        have hmul : Nat.succ k * d = r.length + k * d := by
          rw [Nat.succ_mul, Nat.add_comm, hr]
        rw [hmul, List.drop_append]
      simp only [Function.comp_apply, hd]
    rw [h0, htail, ih hcs]

/-- C1 counterexample: a one-row feature array with its single aligned
label does NOT round-trip — `squeeze` collapses the single-label array
to zero dimensions and the reload's `len(labels)` raises, so reading
back fails instead of reproducing the row. -/
theorem cache_roundtrip_cex :
    reload_cache (write_codes [[1, 2]]) (write_labels [['r']]) = none := by
  decide

/-- C1 (amended): for a feature array of `N ≥ 2` uniform-width rows and
`N` aligned labels, each non-empty and free of `'\n'`/`'\r'`, writing
the codes and labels files and reading both back reproduces the
original rows (exact values) and the original labels in order. -/
theorem cache_roundtrip (codes : List (List Nat)) (labels : List (List Char))
    (d : Nat) (hlen : codes.length = labels.length) (h2 : 2 ≤ labels.length)
    (hw : ∀ r ∈ codes, r.length = d)
    (hl : ∀ l ∈ labels, l ≠ [] ∧ '\n' ∉ l ∧ '\r' ∉ l) :
    reload_cache (write_codes codes) (write_labels labels)
      = some (codes, labels) := by
  have hlines : read_lines (write_labels labels) = labels :=
    read_write_lines labels hl
  have hread : read_labels (write_labels labels) = some labels := by
    rw [read_labels, hlines]
    rw [if_neg (by omega)]
  have hn0 : labels.length ≠ 0 := by omega
  have hflat : (write_codes codes).length = labels.length * d := by
    rw [write_codes, List.length_flatten]
    have : codes.map List.length = List.replicate codes.length d := by
      rw [List.eq_replicate_iff]
      exact ⟨List.length_map codes List.length,
        fun b hb => by
          obtain ⟨r, hr, hrb⟩ := List.mem_map.mp hb
          rw [← hrb]; exact hw r hr⟩
    rw [this, List.sum_replicate, smul_eq_mul, hlen]
  have hmod : (write_codes codes).length % labels.length = 0 := by
    rw [hflat]
    exact Nat.mul_mod_right _ _
  have hdiv : (write_codes codes).length / labels.length = d := by
    rw [hflat]
    exact Nat.mul_div_cancel_left d (by omega)
  have hreshape : reshape_rows labels.length (write_codes codes)
      = some codes := by
    rw [reshape_rows, if_neg hn0]
    simp only [hmod, if_neg, ite_not, if_pos]
    rw [hdiv, ← hlen, write_codes, reshape_flatten d codes hw]
  rw [reload_cache, hread]
  simp [hreshape]

/-- Witness for C1 (amended) at a concrete two-row cache. -/
theorem cache_roundtrip_witness :
    reload_cache (write_codes [[1], [2]]) (write_labels [['a'], ['b']])
      = some ([[1], [2]], [['a'], ['b']]) :=
  cache_roundtrip [[1], [2]] [['a'], ['b']] 1 (by decide) (by decide)
    (by decide) (by decide)

/-- If numpy's `reshape((n, -1))` succeeds it returns exactly `n` rows,
and `n` divides the element count. -/
theorem reshape_rows_length (n : Nat) (flat : List α)
    (c : List (List α)) (h : reshape_rows n flat = some c) :
    c.length = n ∧ n ∣ flat.length := by
  rw [reshape_rows] at h
  by_cases hn : n = 0
  · rw [if_pos hn] at h
    exact absurd h (by simp)
  · rw [if_neg hn] at h
    by_cases hm : flat.length % n ≠ 0
    · rw [if_pos hm] at h
      exact absurd h (by simp)
    · rw [if_neg hm] at h
      have hc : c = (List.range n).map
          (fun i => (flat.drop (i * (flat.length / n))).take
            (flat.length / n)) := by
        exact (Option.some_injective _ h).symm
      rw [hc]
      refine ⟨by simp, Nat.dvd_of_mod_eq_zero (by omega)⟩

/-- C8: reading the cache back either fails (as the reshape does when
the label count is not a positive divisor of the stored float count) or
returns a feature array with exactly one row per label — it never
silently returns an array whose row count differs from the label
count. -/
theorem reload_cache_rowcount (codesFile : List Nat) (labelsFile : List Char) :
    (∀ codes labels,
      reload_cache codesFile labelsFile = some (codes, labels) →
        codes.length = labels.length ∧ labels.length ∣ codesFile.length) ∧
    (∀ labels, read_labels labelsFile = some labels →
      ¬ labels.length ∣ codesFile.length →
      reload_cache codesFile labelsFile = none) := by
  constructor
  · intro codes labels h
    cases hr : read_labels labelsFile with
    | none =>
      simp only [reload_cache, hr] at h
      exact absurd h (by simp)
    | some ls =>
      simp only [reload_cache, hr] at h
      cases hs : reshape_rows ls.length codesFile with
      | none =>
        simp only [hs] at h
        exact absurd h (by simp)
      | some cs =>
        simp only [hs, Option.some.injEq, Prod.mk.injEq] at h
        obtain ⟨hcs, hls⟩ := h
        subst hcs
        subst hls
        exact reshape_rows_length _ _ _ hs
  · intro labels hr hdvd
    cases hs : reshape_rows labels.length codesFile with
    | none => simp only [reload_cache, hr, hs]
    | some cs =>
      exact absurd (reshape_rows_length _ _ _ hs).2 hdvd

/-- Witness for C8: three stored floats against two labels is a count
mismatch, and the reload fails rather than returning a misaligned
array. -/
theorem reload_cache_rowcount_witness :
    reload_cache [1, 2, 3] ['a', '\n', 'b', '\r', '\n'] = none :=
  (reload_cache_rowcount [1, 2, 3] ['a', '\n', 'b', '\r', '\n']).2
    [['a'], ['b']] (by decide) (by decide)

/-! ## Label one-hot encoding

Source (solution notebook):
```
lb = LabelBinarizer()
lb.fit(labels)
labels_vecs = lb.transform(labels)
```
`LabelBinarizer` is an external scikit-learn collaborator, modelled from
its documented semantics: `fit` stores `classes_ = np.unique(y)` — the
distinct labels in sorted (code-point lexicographic) order — and
`transform` maps each label to a row of width `len(classes_)` with a one
at the label's class index, EXCEPT that binary targets (two distinct
classes) transform to a single indicator column (one iff the label is
`classes_[1]`), and a single class transforms to a zero column.  Labels
are character strings as in the cache model. -/
def lex_lt : List Char → List Char → Bool
  | [], [] => false
  | [], _ :: _ => true
  | _ :: _, [] => false
  | a :: as, b :: bs =>
    if a < b then true else if b < a then false else lex_lt as bs

/-- Total lexicographic `≤` on label strings. -/
def lex_le (a b : List Char) : Bool := ! lex_lt b a

/-- Insertion step of the sort used to model `np.unique`'s ordering. -/
def insert_sorted (a : List Char) :
    List (List Char) → List (List Char)
  | [] => [a]
  | b :: bs => if lex_le a b then a :: b :: bs else b :: insert_sorted a bs

/-- Insertion sort by `lex_le` (the sorted order of `np.unique`). -/
def sort_labels : List (List Char) → List (List Char)
  | [] => []
  | a :: as => insert_sorted a (sort_labels as)

/-- `lb.fit(labels)`: `classes_ = np.unique(labels)` — distinct labels,
sorted. -/
def lb_classes (labels : List (List Char)) : List (List Char) :=
  sort_labels labels.dedup

/-- `lb.transform(labels)` with the fitted classes: one-hot rows of
width `len(classes_)` for three or more classes; a single indicator
column for the binary case (positive class `classes_[1]`); a zero
column for one class. -/
def lb_transform (classes : List (List Char)) (labels : List (List Char)) :
    List (List Nat) :=
  if classes.length ≤ 2 then
    labels.map (fun l =>
      [if classes.getD 1 [] = l ∧ 2 ≤ classes.length then 1 else 0])
  else
    labels.map (fun l => classes.map (fun c => if c = l then 1 else 0))

/-- `insert_sorted` permutes insertion. -/
theorem insert_sorted_perm (a : List Char) (l : List (List Char)) :
    (insert_sorted a l).Perm (a :: l) := by
  induction l with
  | nil => exact List.Perm.refl _
  | cons b bs ih =>
    rw [insert_sorted]
    by_cases h : lex_le a b
    · rw [if_pos h]
    · rw [if_neg h]
      exact ((ih.cons b).trans (List.Perm.swap a b bs))

/-- `sort_labels` is a permutation. -/
theorem sort_labels_perm (l : List (List Char)) :
    (sort_labels l).Perm l := by
  induction l with
  | nil => exact List.Perm.refl _
  | cons a as ih =>
    exact (insert_sorted_perm a (sort_labels as)).trans (ih.cons a)

/-- The fitted class list has no duplicates. -/
theorem lb_classes_nodup (labels : List (List Char)) :
    (lb_classes labels).Nodup :=
  ((sort_labels_perm labels.dedup).nodup_iff).mpr (List.nodup_dedup labels)

/-- Every label occurring in the fit data is a fitted class. -/
theorem mem_lb_classes (labels : List (List Char)) (l : List Char)
    (hl : l ∈ labels) : l ∈ lb_classes labels :=
  ((sort_labels_perm labels.dedup).mem_iff).mpr (List.mem_dedup.mpr hl)

/-- The indicator row of a member of a duplicate-free class list sums
to one: it is a genuine one-hot vector. -/
theorem onehot_sum (l : List Char) :
    ∀ (cs : List (List Char)), cs.Nodup → l ∈ cs →
      (cs.map (fun c => if c = l then (1 : Nat) else 0)).sum = 1 := by
  intro cs
  induction cs with
  | nil => intro _ h; exact absurd h (List.not_mem_nil l)
  | cons b bs ih =>
    intro hnd hm
    have hnd2 := List.nodup_cons.mp hnd
    rw [List.map_cons, List.sum_cons]
    by_cases he : b = l
    · rw [if_pos he]
      have hzero : (bs.map (fun c => if c = l then (1 : Nat) else 0)).sum
          = 0 := by
        rw [List.sum_eq_zero_iff]
        intro x hx
        obtain ⟨y, hy, hyx⟩ := List.mem_map.mp hx
        have hyl : y ≠ l := by
          intro he2
          have hb : b ∈ bs := by
            rw [he, ← he2]
            exact hy
          exact hnd2.1 hb
        rw [← hyx, if_neg hyl]
      rw [hzero]
    · rw [if_neg he]
      have hm2 : l ∈ bs := by
        rcases List.mem_cons.mp hm with h1 | h2
        · exact absurd h1.symm he
        · exact h2
      rw [ih hnd2.2 hm2]

/-- `getD` through a `map`, inside bounds. -/
theorem getD_map_lt (g : List Char → List Nat) (labels : List (List Char))
    (i : Nat) (hi : i < labels.length) :
    (labels.map g).getD i [] = g (labels.getD i []) := by
  rw [List.getD_eq_getElem?_getD, List.getD_eq_getElem?_getD,
    List.getElem?_map, List.getElem?_eq_getElem hi]
  rfl

/-- C7 counterexample: with exactly two distinct class labels the
transform emits single-column rows, not one-hot vectors of width two —
refuting the claim for every label sequence. -/
theorem lb_binary_cex :
    ((lb_transform (lb_classes [['a'], ['b']]) [['a'], ['b']]).getD 0 []).length
      ≠ (lb_classes [['a'], ['b']]).length := by
  decide

/-- C7 (amended): for label sequences with at least three distinct
labels, fitting once over the full sequence and transforming it gives
one encoded row per label; the `i`-th row is the fitted indicator
vector of the `i`-th label, has width equal to the number of distinct
classes, and contains exactly one one. -/
theorem lb_fit_transform (labels : List (List Char))
    (h3 : 3 ≤ (lb_classes labels).length) :
    (lb_transform (lb_classes labels) labels).length = labels.length ∧
    (∀ i, i < labels.length →
      (lb_transform (lb_classes labels) labels).getD i []
        = (lb_classes labels).map
            (fun c => if c = labels.getD i [] then 1 else 0)) ∧
    (∀ i, i < labels.length →
      ((lb_transform (lb_classes labels) labels).getD i []).length
        = (lb_classes labels).length) ∧
    (∀ i, i < labels.length →
      ((lb_transform (lb_classes labels) labels).getD i []).sum = 1) := by
  have hgt : ¬ (lb_classes labels).length ≤ 2 := by omega
  have hrow : ∀ i, i < labels.length →
      (lb_transform (lb_classes labels) labels).getD i []
        = (lb_classes labels).map
            (fun c => if c = labels.getD i [] then 1 else 0) := by
    intro i hi
    rw [lb_transform, if_neg hgt]
    exact getD_map_lt _ labels i hi
  refine ⟨by rw [lb_transform, if_neg hgt]; exact List.length_map _ _,
    hrow, ?_, ?_⟩
  · intro i hi
    rw [hrow i hi]
    exact List.length_map _ _
  · intro i hi
    rw [hrow i hi]
    have hmem : labels.getD i [] ∈ labels := by
      rw [List.getD_eq_getElem?_getD, List.getElem?_eq_getElem hi]
      exact List.getElem_mem hi
    exact onehot_sum _ _ (lb_classes_nodup labels)
      (mem_lb_classes labels _ hmem)

/-- Witness for C7 (amended) at a three-class label sequence. -/
theorem lb_fit_transform_witness :
    ((lb_transform (lb_classes [['a'], ['b'], ['c'], ['a']])
      [['a'], ['b'], ['c'], ['a']]).getD 0 []).sum = 1 :=
  (lb_fit_transform [['a'], ['b'], ['c'], ['a']] (by decide)).2.2.2 0
    (by decide)

/-! ## Training loop: validation cadence and its frame property

Source (solution notebook):
```
epochs = 10
iteration = 0
with tf.Session() as sess:
    sess.run(tf.global_variables_initializer())
    for e in range(epochs):
        for x, y in get_batches(train_x, train_y):
            feed = {inputs_: x, labels_: y}
            loss, _ = sess.run([cost, optimizer], feed_dict=feed)
            iteration += 1
            if iteration % 5 == 0:
                feed = {inputs_: val_x, labels_: val_y}
                val_acc = sess.run(accuracy, feed_dict=feed)
    saver.save(sess, "checkpoints/flowers.ckpt")
```
TensorFlow's execution contract: a `sess.run` call mutates the trainable
parameters exactly when the fetched operations include the `optimizer`
training op; fetching only `cost` or `accuracy` reads the graph without
applying gradients.  Parameters and feeds are abstract types; one
optimizer step is an arbitrary function `opt`.  Each firing of the
validation branch is recorded as `(iteration, params before the
validation run, params after it)`; the validation run is fed the whole
validation partition (`val_feed`). -/
inductive Fetch
  | cost
  | optimizer
  | accuracy
deriving DecidableEq

/-- One `sess.run(fetches, feed)`: applies a gradient step iff the
optimizer op is fetched. -/
def sess_run (opt : P → F → P) (fetches : List Fetch) (params : P)
    (feed : F) : P :=
  if Fetch.optimizer ∈ fetches then opt params feed else params

structure TrainState (P : Type*) where
  params : P
  iteration : Nat
  val_records : List (Nat × P × P)

/-- The body of the inner batch loop: one training `sess.run`, the
iteration increment, and the conditional validation `sess.run`. -/
def train_step (opt : P → F → P) (val_feed : F) (st : TrainState P)
    (batch : F) : TrainState P :=
  let p1 := sess_run opt [Fetch.cost, Fetch.optimizer] st.params batch
  let it1 := st.iteration + 1
  if it1 % 5 = 0 then
    let p2 := sess_run opt [Fetch.accuracy] p1 val_feed
    { params := p2, iteration := it1,
      val_records := st.val_records ++ [(it1, p1, p2)] }
  else
    { params := p1, iteration := it1, val_records := st.val_records }

/-- One epoch: `for x, y in get_batches(train_x, train_y)`. -/
def train_epoch (opt : P → F → P) (val_feed : F) (batches : List F)
    (st : TrainState P) : TrainState P :=
  batches.foldl (train_step opt val_feed) st

/-- The full loop: `for e in range(epochs)`. -/
def train_loop (opt : P → F → P) (val_feed : F) (batches : List F) :
    Nat → TrainState P → TrainState P
  | 0, st => st
  | e + 1, st => train_loop opt val_feed batches e
      (train_epoch opt val_feed batches st)

/-- The iterations at which the validation branch fires in `n` steps:
the multiples of 5 among `1 … n`. -/
def val_iterations (n : Nat) : List Nat :=
  ((List.range n).map (· + 1)).filter (fun i => i % 5 = 0)

/-- A step preserves and extends the loop invariant: iteration counts
the processed batches, every recorded validation happened at a multiple
of five and left the parameters unchanged, and the recorded iterations
are exactly the multiples of five so far. -/
theorem train_step_invariant (opt : P → F → P) (val_feed : F)
    (st : TrainState P) (batch : F)
    (hrec : ∀ r ∈ st.val_records, r.1 % 5 = 0 ∧ r.2.1 = r.2.2)
    (hit : st.val_records.map Prod.fst = val_iterations st.iteration) :
    (∀ r ∈ (train_step opt val_feed st batch).val_records,
      r.1 % 5 = 0 ∧ r.2.1 = r.2.2) ∧
    (train_step opt val_feed st batch).val_records.map Prod.fst
      = val_iterations (train_step opt val_feed st batch).iteration ∧
    (train_step opt val_feed st batch).iteration = st.iteration + 1 := by
  have hval : ∀ p : P, sess_run opt [Fetch.accuracy] p val_feed = p := by
    intro p
    rw [sess_run, if_neg (by decide)]
  have hrange : val_iterations (st.iteration + 1)
      = val_iterations st.iteration ++
        (if (st.iteration + 1) % 5 = 0 then [st.iteration + 1] else []) := by
    rw [val_iterations, val_iterations, List.range_succ, List.map_append,
      List.filter_append]
    by_cases h5 : (st.iteration + 1) % 5 = 0
    · rw [if_pos h5]
      simp [h5]
    · rw [if_neg h5]
      simp [h5]
  by_cases h5 : (st.iteration + 1) % 5 = 0
  · rw [train_step]
    simp only [if_pos h5]
    refine ⟨?_, ?_, trivial⟩
    · intro r hr
      rcases List.mem_append.mp hr with h1 | h2
      · exact hrec r h1
      · have : r = (st.iteration + 1,
            sess_run opt [Fetch.cost, Fetch.optimizer] st.params batch,
            sess_run opt [Fetch.accuracy]
              (sess_run opt [Fetch.cost, Fetch.optimizer] st.params batch)
              val_feed) := by
          simpa using h2
        rw [this, hval]
        exact ⟨h5, rfl⟩
    · rw [List.map_append, hit, hrange, if_pos h5]
      rfl
  · rw [train_step]
    simp only [if_neg h5]
    refine ⟨hrec, ?_, trivial⟩
    rw [hit, hrange, if_neg h5, List.append_nil]

/-- The epoch fold preserves the invariant, advancing the iteration
count by the number of batches. -/
theorem train_epoch_invariant (opt : P → F → P) (val_feed : F) :
    ∀ (batches : List F) (st : TrainState P),
      (∀ r ∈ st.val_records, r.1 % 5 = 0 ∧ r.2.1 = r.2.2) →
      st.val_records.map Prod.fst = val_iterations st.iteration →
      (∀ r ∈ (train_epoch opt val_feed batches st).val_records,
        r.1 % 5 = 0 ∧ r.2.1 = r.2.2) ∧
      (train_epoch opt val_feed batches st).val_records.map Prod.fst
        = val_iterations (train_epoch opt val_feed batches st).iteration ∧
      (train_epoch opt val_feed batches st).iteration
        = st.iteration + batches.length := by
  intro batches
  induction batches with
  | nil => intro st h1 h2; exact ⟨h1, h2, rfl⟩
  | cons b bs ih =>
    intro st h1 h2
    have hstep := train_step_invariant opt val_feed st b h1 h2
    have hrest := ih (train_step opt val_feed st b) hstep.1 hstep.2.1
    refine ⟨hrest.1, hrest.2.1, ?_⟩
    rw [train_epoch] at hrest ⊢
    rw [List.foldl_cons, hrest.2.2, hstep.2.2, List.length_cons]
    omega

/-- The epoch iteration preserves the invariant across epochs. -/
theorem train_loop_invariant (opt : P → F → P) (val_feed : F)
    (batches : List F) :
    ∀ (epochs : Nat) (st : TrainState P),
      (∀ r ∈ st.val_records, r.1 % 5 = 0 ∧ r.2.1 = r.2.2) →
      st.val_records.map Prod.fst = val_iterations st.iteration →
      (∀ r ∈ (train_loop opt val_feed batches epochs st).val_records,
        r.1 % 5 = 0 ∧ r.2.1 = r.2.2) ∧
      (train_loop opt val_feed batches epochs st).val_records.map Prod.fst
        = val_iterations
            (train_loop opt val_feed batches epochs st).iteration ∧
      (train_loop opt val_feed batches epochs st).iteration
        = st.iteration + epochs * batches.length := by
  intro epochs
  induction epochs with
  | zero =>
    intro st h1 h2
    refine ⟨h1, h2, ?_⟩
    rw [train_loop]
    omega
  | succ e ih =>
    intro st h1 h2
    have hep := train_epoch_invariant opt val_feed batches st h1 h2
    have hrest := ih (train_epoch opt val_feed batches st) hep.1 hep.2.1
    refine ⟨hrest.1, hrest.2.1, ?_⟩
    rw [train_loop, hrest.2.2, hep.2.2]
    ring

/-- C9: starting from iteration 0, the training loop fires its
validation evaluation exactly at the iterations that are multiples of 5
(the default cadence), and each such evaluation — a `sess.run` fetching
only `accuracy` over the full validation feed — leaves the classifier
parameters exactly as they were before it. -/
theorem validation_cadence_frame (opt : P → F → P) (p0 : P) (val_feed : F)
    (batches : List F) (epochs : Nat) :
    (∀ r ∈ (train_loop opt val_feed batches epochs
        ⟨p0, 0, []⟩).val_records, r.1 % 5 = 0 ∧ r.2.1 = r.2.2) ∧
    (train_loop opt val_feed batches epochs
        ⟨p0, 0, []⟩).val_records.map Prod.fst
      = val_iterations (epochs * batches.length) := by
  have h := train_loop_invariant opt val_feed batches epochs ⟨p0, 0, []⟩
    (by intro r hr; exact absurd hr (List.not_mem_nil r)) rfl
  refine ⟨h.1, ?_⟩
  rw [h.2.1, h.2.2]
  simp

/-- Witness for C9: five one-step batches, one epoch; the single
validation record fires at iteration 5 with untouched parameters. -/
theorem validation_cadence_frame_witness :
    ((5, 5, 5) : Nat × Nat × Nat).1 % 5 = 0 ∧
    ((5, 5, 5) : Nat × Nat × Nat).2.1 = ((5, 5, 5) : Nat × Nat × Nat).2.2 :=
  (validation_cadence_frame (fun p f => p + f) 0 9
    [1, 1, 1, 1, 1] 1).1 (5, 5, 5) (by decide)

end TransferLearning
